import Mathlib

/-!
Verification of midnightOne/ollama-local-telegram-bot (src/bot.py).

The file shallowly embeds the pure core of the bot: the tag-split scan
loop of handle_message (bot.py lines 279-303), the chunker (lines 93-100),
conversation trimming (lines 102-115), prompt reconstruction (lines 48-85),
the assistant-turn commit (lines 356-363) and the persisted-store loader
(lines 117-148).  Text is modelled as List Char; Python str.find-based
scanning is embedded as first-occurrence recursion over the character
list, which computes the same split.  Loops that consume at least one
character per iteration are embedded with an explicit structural fuel
argument initialised to the input length (so every definition computes by
structural recursion); fuel-irrelevance lemmas below recover the natural
recurrences, and no behaviour depends on the fuel value.
-/

/-- Marker opening a reasoning span, hardcoded in bot.py line 282. -/
def openMarker : List Char := "<think>".data

/-- Marker closing a reasoning span, hardcoded in bot.py line 292. -/
def closeMarker : List Char := "</think>".data

/-- Decides whether `p` occurs at the head of `s` (the characters of `p`
are the first `p.length` characters of `s`).  Used to embed Python
`str.find(marker, i) == i` checks. -/
def matchesHead : List Char → List Char → Bool
  | [], _ => true
  | _ :: _, [] => false
  | p :: ps, c :: cs => p == c && matchesHead ps cs

/-- Decides whether `pat` occurs anywhere inside `s` as a contiguous run,
embedding Python `pat in s` / `s.find(pat) != -1`. -/
def hasSub : List Char → List Char → Bool
  | pat, [] => matchesHead pat []
  | pat, c :: rest => matchesHead pat (c :: rest) || hasSub pat rest

/-- One state of the tag-split scan of handle_message: the Python string
values "outsideThink", "insideThink" and the implicit third state reached
by the final `else` branch (bot.py lines 207, 281-303). -/
inductive TagState where
  | outsideThink
  | insideThink
  | afterThink
deriving DecidableEq

/-- Buffers outside_buffer, inside_buffer, after_buffer of handle_message
(bot.py lines 208-210). -/
structure Buffers where
  outside : List Char
  inside : List Char
  after : List Char
deriving DecidableEq

def emptyBuffers : Buffers := ⟨[], [], []⟩

/-- Scan of one arriving fragment with explicit fuel, embedding bot.py
lines 279-303.  The source advances an index `i` and uses
`new_tokens.find(marker, i)`; appending character by character up to the
first head-match of the marker produces the same buffer contents.  In
state outsideThink, text up to the first full occurrence of the open
marker goes to `outside` and the scan resumes after the marker in
insideThink; in insideThink likewise with the close marker into `inside`,
resuming in afterThink; in afterThink the whole remaining fragment is
appended to `after` (the `else` branch of line 301 never scans for
further markers).  Every step consumes at least one character, so fuel
equal to the fragment length (as supplied by `scanTokens`) never runs
out. -/
def scanAux : Nat → TagState → List Char → Buffers → TagState × Buffers
  | _, .afterThink, cs, bufs => (.afterThink, {bufs with after := bufs.after ++ cs})
  | _, st, [], bufs => (st, bufs)
  | 0, st, _ :: _, bufs => (st, bufs)
  | fuel+1, .outsideThink, c :: rest, bufs =>
    if matchesHead openMarker (c :: rest) then
      scanAux fuel .insideThink ((c :: rest).drop openMarker.length) bufs
    else
      scanAux fuel .outsideThink rest {bufs with outside := bufs.outside ++ [c]}
  | fuel+1, .insideThink, c :: rest, bufs =>
    if matchesHead closeMarker (c :: rest) then
      scanAux fuel .afterThink ((c :: rest).drop closeMarker.length) bufs
    else
      scanAux fuel .insideThink rest {bufs with inside := bufs.inside ++ [c]}

/-- Scan of one arriving fragment (bot.py lines 279-303): `scanAux` with
enough fuel for the whole fragment. -/
def scanTokens (st : TagState) (cs : List Char) (bufs : Buffers) : TagState × Buffers :=
  scanAux cs.length st cs bufs

/-- Processing of a sequence of fragments from a given machine
configuration: the body of the `async for` loop of handle_message applied
to each fragment in arrival order. -/
def runFrom (p : TagState × Buffers) (frags : List (List Char)) : TagState × Buffers :=
  frags.foldl (fun q f => scanTokens q.1 f q.2) p

/-- Processing of a whole stream of fragments from the initial
configuration of handle_message (state "outsideThink", empty buffers,
bot.py lines 207-210). -/
def runFrags (frags : List (List Char)) : TagState × Buffers :=
  runFrom (.outsideThink, emptyBuffers) frags

/-- Concatenation of the fragments in arrival order: the logical raw
stream (`full_response` accumulation, bot.py line 277). -/
def flattenL : List (List Char) → List Char
  | [] => []
  | x :: xs => x ++ flattenL xs

/-- One iteration of the streaming loop for one fragment: line 277
(`full_response += new_tokens`) followed by the tag-split scan of lines
279-303. -/
def handleFragment (full : List Char) (st : TagState) (bufs : Buffers) (f : List Char) :
    List Char × TagState × Buffers :=
  (full ++ f, scanTokens st f bufs)

/-- Telegram's nominal max message length, bot.py line 25. -/
def TELEGRAM_MAX_LEN : Nat := 4096

/-- Chunker loop of bot.py lines 93-100 with explicit fuel: repeatedly
slice `max_len` characters off the front.  The source loops
`idx += max_len` over slices `text[idx:idx+max_len]`; taking the first
`max_len` characters and recursing on the rest yields the same chunks.
For `max_len = 0` the source would loop forever appending empty slices;
the embedding returns `[]` there (all claims assume `max_len ≥ 1`).  Each
iteration consumes at least one character, so fuel equal to the text
length (as supplied by `chunk_text`) never runs out. -/
def chunkAux : Nat → List Char → Nat → List (List Char)
  | _, [], _ => []
  | _, _ :: _, 0 => []
  | 0, _ :: _, _+1 => []
  | fuel+1, c :: cs, m+1 => (c :: cs).take (m+1) :: chunkAux fuel ((c :: cs).drop (m+1)) (m+1)

/-- Chunker of bot.py lines 93-100: `chunkAux` with enough fuel for the
whole text. -/
def chunk_text (text : List Char) (max_len : Nat) : List (List Char) :=
  chunkAux text.length text max_len


/-- Maximum retained turn pairs, bot.py line 23. -/
def MAX_CONVERSATION_TURNS : Nat := 10

/-- One stored conversation turn (see bot.py lines 199 and 359-363): a
role tag plus content, and for assistant turns the separated thinking
text.  User turns carry `thinking = []`. -/
structure Turn where
  role : String
  content : List Char
  thinking : List Char
deriving DecidableEq

/-- Role of `conversation[i]`, embedding the subscript of bot.py line
112.  Out-of-range access (a Python IndexError) yields `""`; under the
guards of `trim_conversation` with `max_turns ≥ 1` the index is always in
range, so the default is never observable there. -/
def roleAt (conv : List Turn) (i : Nat) : String :=
  match conv.get? i with
  | some t => t.role
  | none => ""

/-- While-loop of bot.py lines 112-113: starting from the given index,
step the start index backward while it is positive and the entry there is
not a user turn. -/
def adjust_start (conv : List Turn) : Nat → Nat
  | 0 => 0
  | i + 1 => if roleAt conv (i + 1) = "user" then i + 1 else adjust_start conv i

/-- trim_conversation of bot.py lines 102-115: return the conversation
unchanged when its length is at most `2 * max_turns`, otherwise drop
everything before the adjusted start index `len - 2 * max_turns` moved
backward to a user turn (or to 0). -/
def trim_conversation (conv : List Turn) (max_turns : Nat) : List Turn :=
  if conv.length ≤ max_turns * 2 then conv
  else conv.drop (adjust_start conv (conv.length - max_turns * 2))

/-- Whitespace as removed by Python str.strip(): exactly the code points
for which CPython's str.isspace() holds — 0x09-0x0D, 0x1C-0x1F, space,
0x85 (NEL), 0xA0 (NBSP), 0x1680 (Ogham space mark), 0x2000-0x200A (Zs
spaces), 0x2028 (line separator), 0x2029 (paragraph separator), 0x202F
(narrow NBSP), 0x205F (medium mathematical space) and 0x3000
(ideographic space). -/
def isPySpace (c : Char) : Bool :=
  (decide (0x09 ≤ c.toNat) && decide (c.toNat ≤ 0x0d)) ||
  (decide (0x1c ≤ c.toNat) && decide (c.toNat ≤ 0x1f)) ||
  c.toNat == 0x20 || c.toNat == 0x85 || c.toNat == 0xa0 || c.toNat == 0x1680 ||
  (decide (0x2000 ≤ c.toNat) && decide (c.toNat ≤ 0x200a)) ||
  c.toNat == 0x2028 || c.toNat == 0x2029 || c.toNat == 0x202f ||
  c.toNat == 0x205f || c.toNat == 0x3000

/-- Python str.strip(): remove leading and trailing whitespace. -/
def pyStrip (s : List Char) : List Char :=
  ((s.dropWhile isPySpace).reverse.dropWhile isPySpace).reverse

/-- Assistant turn committed at stream completion, bot.py lines 356-363:
thinking is the stripped inside buffer, content the stripped
concatenation of outside and after buffers. -/
def mkAssistantTurn (bufs : Buffers) : Turn :=
  { role := "assistant"
    content := pyStrip (bufs.outside ++ bufs.after)
    thinking := pyStrip bufs.inside }

/-- Re-serialization of one assistant turn inside build_prompt, bot.py
lines 64-67: when the stripped thinking text is non-empty the markers are
reinserted around it followed by a newline and the stripped response,
otherwise the stripped response alone. -/
def rebuildAssistant (t : Turn) : List Char :=
  let thinking := pyStrip t.thinking
  let response := pyStrip t.content
  if thinking = [] then response
  else openMarker ++ thinking ++ closeMarker ++ '\n' :: response

/-- One chat-API message of the request payload built by build_prompt. -/
structure Msg where
  role : String
  content : List Char
deriving DecidableEq

/-- System message content of bot.py lines 51-54. -/
def systemContent : List Char :=
  "You are a helpful assistant. Keep your thinking concise and focused on the current task. Use <think> tags only for current reasoning, not for recapping previous context.".data

/-- Rendering of one stored turn inside the loop of bot.py lines 57-71:
user turns pass through, assistant turns are re-serialized. -/
def renderTurn (t : Turn) : Msg :=
  if t.role = "user" then ⟨"user", t.content⟩ else ⟨"assistant", rebuildAssistant t⟩

/-- build_prompt of bot.py lines 48-85, restricted to the messages list
(the stream flag and sampler options of the payload carry no turn data
and are omitted): the system message followed by the rendered last six
turns (`conversation[-6:]`). -/
def build_prompt (conversation : List Turn) : List Msg :=
  ⟨"system", systemContent⟩ ::
    (conversation.drop (conversation.length - 6)).map renderTurn

/-- JSON value as decoded by json.load, for the persisted store. -/
inductive JVal where
  | jstr (s : String)
  | jnum (n : Int)
  | jbool (b : Bool)
  | jnull
  | jarr (xs : List JVal)
  | jobj (fields : List (String × JVal))

/-- Python turn.get(key, jstr "") over a decoded JSON object. -/
def jget (fields : List (String × JVal)) (k : String) : JVal :=
  (List.lookup k fields).getD (.jstr "")

/-- Validation of one decoded turn in the loop of bot.py lines 128-141:
a dict with a "role" key is kept when the role is "user" or "assistant"
and a "content" key is present; assistant turns are rebuilt with exactly
role, content and thinking keys; everything else is skipped.  The
source's `expected_role` variable is assigned in this loop but never
read, so it is not modelled. -/
def validateTurn (v : JVal) : Option JVal :=
  match v with
  | .jobj fields =>
    match List.lookup "role" fields with
    | some (.jstr r) =>
      if r = "user" then
        if (List.lookup "content" fields).isSome then some v else none
      else if r = "assistant" then
        if (List.lookup "content" fields).isSome then
          some (.jobj [("role", .jstr "assistant"),
                       ("content", jget fields "content"),
                       ("thinking", jget fields "thinking")])
        else none
      else none
    | some _ => none
    | none => none
  | _ => none

/-- Inner validation loop of bot.py lines 126-141 over one stored
conversation: keep the validated turns in order. -/
def validateConvo : List JVal → List JVal
  | [] => []
  | t :: rest =>
    match validateTurn t with
    | some v => v :: validateConvo rest
    | none => validateConvo rest

/-- load_conversations of bot.py lines 117-148, with the file system and
json.load abstracted to the decoded input: `none` models a missing file
or a json.JSONDecodeError/IOError (both leave `conversations = {}`),
`some loaded` a successfully decoded store, assumed (as the code does) to
map each chat id to a JSON array of turns.  Every chat id of a decoded
store is retained, with its conversation replaced by its validated
turns. -/
def load_conversations (input : Option (List (String × List JVal))) :
    List (String × List JVal) :=
  match input with
  | none => []
  | some loaded => loaded.map fun p => (p.1, validateConvo p.2)

/-- Buffer of the current scan state, and appending a fragment to it:
the buffer that receives text while no marker is recognized (outside,
inside or after buffer according to the state). -/
def appendCurrent : TagState → Buffers → List Char → Buffers
  | .outsideThink, bufs, f => {bufs with outside := bufs.outside ++ f}
  | .insideThink, bufs, f => {bufs with inside := bufs.inside ++ f}
  | .afterThink, bufs, f => {bufs with after := bufs.after ++ f}

/-- Decides whether `p` is a trailing run of `s` (the characters of `p`
are the last `p.length` characters of `s`). -/
def endsWith (p s : List Char) : Bool :=
  matchesHead p.reverse s.reverse

/-- Decides whether an occurrence of the marker `m` straddles the
boundary between `a` and `b`: some nonempty proper leading part of `m`
ends `a` while the matching remainder of `m` starts `b`. -/
def straddles (m a b : List Char) : Bool :=
  (List.range m.length).any fun k =>
    decide (0 < k) && endsWith (m.take k) a && matchesHead (m.drop k) b

/-- Holds when no occurrence of either marker straddles the boundary
between `a` and `b`. -/
def noStraddleB (a b : List Char) : Bool :=
  !(straddles openMarker a b) && !(straddles closeMarker a b)

/-- Holds when no occurrence of either marker straddles any of the
boundaries of the given fragmentation of the raw stream. -/
def goodSplitB (fs : List (List Char)) : Bool :=
  (List.range fs.length).all fun j =>
    decide (j = 0) || noStraddleB (flattenL (fs.take j)) (flattenL (fs.drop j))

/-- Marker-delimited model output in the canonical shape produced by the
model and re-serialized by build_prompt (bot.py line 67): open marker,
reasoning, close marker, newline, answer. -/
def canonicalOutput (r c : List Char) : List Char :=
  openMarker ++ (r ++ (closeMarker ++ ('\n' :: c)))

/-- Sample user turn used in concrete instantiations. -/
def uTurn : Turn := ⟨"user", "hi".data, []⟩

/-- Sample assistant turn used in concrete instantiations. -/
def aTurn : Turn := ⟨"assistant", "yo".data, []⟩

/-! Basic lemmas about the embedded definitions. -/

theorem matchesHead_length_le : ∀ {p s : List Char}, matchesHead p s = true → p.length ≤ s.length
  | [], _, _ => Nat.zero_le _
  | _ :: _, [], h => by simp [matchesHead] at h
  | p :: ps, c :: cs, h => by
      simp only [matchesHead, Bool.and_eq_true] at h
      exact Nat.succ_le_succ (matchesHead_length_le h.2)

theorem scanAux_nil (f : Nat) (st : TagState) (bufs : Buffers) :
    scanAux f st [] bufs = (st, bufs) := by
  cases f <;> cases st <;> simp [scanAux]

theorem scanAux_fuel : ∀ f1 : Nat, ∀ cs : List Char, ∀ f2 : Nat, cs.length ≤ f1 →
    cs.length ≤ f2 → ∀ st bufs, scanAux f1 st cs bufs = scanAux f2 st cs bufs := by
  intro f1
  induction f1 with
  | zero =>
    intro cs f2 h1 h2 st bufs
    have hcs : cs = [] := List.length_eq_zero.mp (Nat.le_zero.mp h1)
    subst hcs
    rw [scanAux_nil, scanAux_nil]
  | succ g1 ih =>
    intro cs f2 h1 h2 st bufs
    cases cs with
    | nil => rw [scanAux_nil, scanAux_nil]
    | cons c rest =>
      have hr : rest.length + 1 ≤ g1 + 1 := by simpa using h1
      cases f2 with
      | zero => simp at h2
      | succ g2 =>
        have hr2 : rest.length + 1 ≤ g2 + 1 := by simpa using h2
        cases st with
        | afterThink => rfl
        | outsideThink =>
          by_cases hm : matchesHead openMarker (c :: rest) = true
          · have e7 : openMarker.length = 7 := rfl
            have hd : ((c :: rest).drop openMarker.length).length
                = (c :: rest).length - openMarker.length := List.length_drop _ _
            have hdd1 : ((c :: rest).drop openMarker.length).length ≤ g1 := by
              rw [hd, e7]; simp only [List.length_cons]; omega
            have hdd2 : ((c :: rest).drop openMarker.length).length ≤ g2 := by
              rw [hd, e7]; simp only [List.length_cons]; omega
            simp only [scanAux, hm, if_true]
            exact ih _ g2 hdd1 hdd2 _ _
          · simp only [scanAux, hm, Bool.false_eq_true, if_false]
            exact ih _ g2 (by omega) (by omega) _ _
        | insideThink =>
          by_cases hm : matchesHead closeMarker (c :: rest) = true
          · simp only [scanAux, hm, if_true]
          · simp only [scanAux, hm, Bool.false_eq_true, if_false]
            exact ih _ g2 (by omega) (by omega) _ _

theorem scanAux_eq_scanTokens (fuel : Nat) (st : TagState) (cs : List Char) (bufs : Buffers)
    (h : cs.length ≤ fuel) : scanAux fuel st cs bufs = scanTokens st cs bufs :=
  scanAux_fuel fuel cs cs.length h le_rfl st bufs

/-- Processing the empty fragment leaves state and buffers unchanged. -/
theorem scan_nil (st : TagState) (bufs : Buffers) : scanTokens st [] bufs = (st, bufs) := by
  cases st <;> simp [scanTokens, scanAux]

/-- Step of the scan in state outsideThink when the open marker sits at
the scan position (bot.py lines 286-289). -/
theorem scan_outside_found (cs : List Char) (bufs : Buffers)
    (h : matchesHead openMarker cs = true) :
    scanTokens .outsideThink cs bufs
      = scanTokens .insideThink (cs.drop openMarker.length) bufs := by
  have hlen : openMarker.length ≤ cs.length := matchesHead_length_le h
  have e7 : openMarker.length = 7 := rfl
  cases cs with
  | nil => rw [e7] at hlen; simp at hlen
  | cons c rest =>
    show scanAux (rest.length + 1) .outsideThink (c :: rest) bufs = _
    simp only [scanAux, h, if_true]
    refine scanAux_eq_scanTokens _ _ _ _ ?_
    rw [List.length_drop, e7]
    simp only [List.length_cons]
    omega

/-- Step of the scan in state outsideThink when the open marker does not
sit at the scan position: the character is kept in outside_buffer and the
scan moves on (bot.py lines 283-285, character-by-character view of the
`find`-based slice append). -/
theorem scan_outside_cons (c : Char) (rest : List Char) (bufs : Buffers)
    (h : matchesHead openMarker (c :: rest) = false) :
    scanTokens .outsideThink (c :: rest) bufs
      = scanTokens .outsideThink rest {bufs with outside := bufs.outside ++ [c]} := by
  show scanAux (rest.length + 1) .outsideThink (c :: rest) bufs = _
  simp only [scanAux, h, Bool.false_eq_true, if_false]
  exact scanAux_eq_scanTokens _ _ _ _ le_rfl

/-- In the third state everything remaining in the fragment is appended
to after_buffer and no marker is looked for (bot.py lines 301-303). -/
theorem scan_after (cs : List Char) (bufs : Buffers) :
    scanTokens .afterThink cs bufs = (.afterThink, {bufs with after := bufs.after ++ cs}) := by
  cases cs <;> rfl

/-- Step of the scan in state insideThink when the close marker sits at
the scan position (bot.py lines 296-299). -/
theorem scan_inside_found (cs : List Char) (bufs : Buffers)
    (h : matchesHead closeMarker cs = true) :
    scanTokens .insideThink cs bufs
      = scanTokens .afterThink (cs.drop closeMarker.length) bufs := by
  have hlen : closeMarker.length ≤ cs.length := matchesHead_length_le h
  have e8 : closeMarker.length = 8 := rfl
  cases cs with
  | nil => rw [e8] at hlen; simp at hlen
  | cons c rest =>
    show scanAux (rest.length + 1) .insideThink (c :: rest) bufs = _
    simp only [scanAux, h, if_true]
    rw [scan_after]

/-- Step of the scan in state insideThink when the close marker does not
sit at the scan position (bot.py lines 293-295). -/
theorem scan_inside_cons (c : Char) (rest : List Char) (bufs : Buffers)
    (h : matchesHead closeMarker (c :: rest) = false) :
    scanTokens .insideThink (c :: rest) bufs
      = scanTokens .insideThink rest {bufs with inside := bufs.inside ++ [c]} := by
  show scanAux (rest.length + 1) .insideThink (c :: rest) bufs = _
  simp only [scanAux, h, Bool.false_eq_true, if_false]
  exact scanAux_eq_scanTokens _ _ _ _ le_rfl

theorem chunkAux_nil (f m : Nat) : chunkAux f [] m = [] := by
  cases f <;> cases m <;> rfl

theorem chunkAux_fuel : ∀ f1 : Nat, ∀ text : List Char, ∀ f2 m : Nat, text.length ≤ f1 →
    text.length ≤ f2 → chunkAux f1 text m = chunkAux f2 text m := by
  intro f1
  induction f1 with
  | zero =>
    intro text f2 m h1 h2
    have htext : text = [] := List.length_eq_zero.mp (Nat.le_zero.mp h1)
    subst htext
    rw [chunkAux_nil, chunkAux_nil]
  | succ g1 ih =>
    intro text f2 m h1 h2
    cases text with
    | nil => rw [chunkAux_nil, chunkAux_nil]
    | cons c cs =>
      have hc : cs.length + 1 ≤ g1 + 1 := by simpa using h1
      cases m with
      | zero =>
        cases f2 with
        | zero => simp at h2
        | succ g2 => rfl
      | succ m0 =>
        cases f2 with
        | zero => simp at h2
        | succ g2 =>
          have hc2 : cs.length + 1 ≤ g2 + 1 := by simpa using h2
          simp only [chunkAux]
          have hd : ((c :: cs).drop (m0 + 1)).length = (c :: cs).length - (m0 + 1) :=
            List.length_drop _ _
          have hdd1 : ((c :: cs).drop (m0 + 1)).length ≤ g1 := by
            rw [hd]; simp only [List.length_cons]; omega
          have hdd2 : ((c :: cs).drop (m0 + 1)).length ≤ g2 := by
            rw [hd]; simp only [List.length_cons]; omega
          rw [ih _ g2 _ hdd1 hdd2]

/-- Recurrence of the chunker on nonempty text and positive limit. -/
theorem chunk_text_step (c : Char) (cs : List Char) (m : Nat) :
    chunk_text (c :: cs) (m + 1)
      = (c :: cs).take (m + 1) :: chunk_text ((c :: cs).drop (m + 1)) (m + 1) := by
  show chunkAux (cs.length + 1) (c :: cs) (m + 1) = _
  simp only [chunkAux]
  rw [chunkAux_fuel cs.length ((c :: cs).drop (m + 1)) ((c :: cs).drop (m + 1)).length (m + 1)
    (by rw [List.length_drop]; simp only [List.length_cons]; omega) le_rfl]
  rfl

theorem chunk_text_nil (m : Nat) : chunk_text [] m = [] := by
  cases m <;> rfl

theorem matchesHead_self : ∀ p : List Char, matchesHead p p = true
  | [] => rfl
  | c :: ps => by simp [matchesHead, matchesHead_self ps]

theorem matchesHead_append_right : ∀ {p s t : List Char},
    matchesHead p s = true → matchesHead p (s ++ t) = true
  | [], _, _, _ => rfl
  | _ :: _, [], _, h => by simp [matchesHead] at h
  | p :: ps, d :: s, t, h => by
      simp only [matchesHead, Bool.and_eq_true] at h
      simp only [List.cons_append, matchesHead, Bool.and_eq_true]
      exact ⟨h.1, matchesHead_append_right h.2⟩

theorem matchesHead_of_append : ∀ {p s t : List Char},
    matchesHead p (s ++ t) = true → p.length ≤ s.length → matchesHead p s = true
  | [], _, _, _, _ => rfl
  | p :: ps, [], _, _, hl => by simp at hl
  | p :: ps, d :: s, t, h, hl => by
      simp only [List.cons_append, matchesHead, Bool.and_eq_true] at h
      simp only [matchesHead, Bool.and_eq_true]
      refine ⟨h.1, matchesHead_of_append h.2 ?_⟩
      simp only [List.length_cons] at hl
      omega

theorem matchesHead_append_self (p t : List Char) : matchesHead p (p ++ t) = true :=
  matchesHead_append_right (matchesHead_self p)

theorem matchesHead_split : ∀ {s p t : List Char}, matchesHead p (s ++ t) = true →
    s.length < p.length → p.take s.length = s ∧ matchesHead (p.drop s.length) t = true
  | [], p, t, h, _ => ⟨rfl, h⟩
  | d :: s, [], t, _, hl => by simp at hl
  | d :: s, p :: ps, t, h, hl => by
      simp only [List.cons_append, matchesHead, Bool.and_eq_true, beq_iff_eq] at h
      have hl2 : s.length < ps.length := by simp only [List.length_cons] at hl; omega
      have ih := matchesHead_split h.2 hl2
      refine ⟨?_, ?_⟩
      · simp only [List.length_cons, List.take_succ_cons, ih.1, h.1]
      · simpa only [List.length_cons, List.drop_succ_cons] using ih.2

theorem hasSub_nil_pat : ∀ s : List Char, hasSub [] s = true
  | [] => rfl
  | _ :: rest => by simp [hasSub, matchesHead]

theorem hasSub_append_of_left : ∀ {pat a : List Char} (b : List Char),
    hasSub pat a = true → hasSub pat (a ++ b) = true := by
  intro pat a
  induction a with
  | nil =>
    intro b h
    have hpat : pat = [] := by
      cases pat with
      | nil => rfl
      | cons p ps => simp [hasSub, matchesHead] at h
    subst hpat
    exact hasSub_nil_pat b
  | cons c a' ih =>
    intro b h
    simp only [hasSub, Bool.or_eq_true] at h
    rcases h with h | h
    · simp only [List.cons_append, hasSub, Bool.or_eq_true]
      exact Or.inl (by simpa only [List.cons_append] using matchesHead_append_right h)
    · simp only [List.cons_append, hasSub, Bool.or_eq_true]
      exact Or.inr (ih b h)

theorem hasSub_append_of_right : ∀ {pat b : List Char} (a : List Char),
    hasSub pat b = true → hasSub pat (a ++ b) = true := by
  intro pat b a
  induction a with
  | nil => intro h; simpa using h
  | cons c a' ih =>
    intro h
    simp only [List.cons_append, hasSub, Bool.or_eq_true]
    exact Or.inr (ih h)

theorem hasSub_append_eq_false {pat a b : List Char} (h : hasSub pat (a ++ b) = false) :
    hasSub pat a = false ∧ hasSub pat b = false := by
  refine ⟨?_, ?_⟩
  · cases h1 : hasSub pat a with
    | false => rfl
    | true => rw [hasSub_append_of_left b h1] at h; exact absurd h (by simp)
  · cases h1 : hasSub pat b with
    | false => rfl
    | true => rw [hasSub_append_of_right a h1] at h; exact absurd h (by simp)

theorem endsWith_self (x : List Char) : endsWith x x = true :=
  matchesHead_self x.reverse

theorem endsWith_append_of (p : List Char) {x a : List Char} (h : endsWith x a = true) :
    endsWith x (p ++ a) = true := by
  unfold endsWith at h ⊢
  rw [List.reverse_append]
  exact matchesHead_append_right h

theorem straddles_nil_right (m a : List Char) : straddles m a [] = false := by
  cases hs : straddles m a [] with
  | false => rfl
  | true =>
    exfalso
    rw [straddles, List.any_eq_true] at hs
    obtain ⟨k, hk, hp⟩ := hs
    simp only [List.mem_range] at hk
    simp only [Bool.and_eq_true, decide_eq_true_eq] at hp
    have hne : m.drop k ≠ [] := by
      intro hcon
      have := List.drop_eq_nil_iff.mp hcon
      omega
    cases hd : m.drop k with
    | nil => exact hne hd
    | cons x xs => rw [hd] at hp; exact absurd hp.2 (by simp [matchesHead])

theorem straddles_append_left (m p a b : List Char) (h : straddles m a b = true) :
    straddles m (p ++ a) b = true := by
  rw [straddles, List.any_eq_true] at h ⊢
  obtain ⟨k, hk, hp⟩ := h
  simp only [Bool.and_eq_true, decide_eq_true_eq] at hp
  refine ⟨k, hk, ?_⟩
  simp only [Bool.and_eq_true, decide_eq_true_eq]
  exact ⟨⟨hp.1.1, endsWith_append_of p hp.1.2⟩, hp.2⟩

theorem noStraddleB_nil (a : List Char) : noStraddleB a [] = true := by
  simp [noStraddleB, straddles_nil_right]

theorem noStraddleB_of_append (p a b : List Char) (h : noStraddleB (p ++ a) b = true) :
    noStraddleB a b = true := by
  simp only [noStraddleB, Bool.and_eq_true, Bool.not_eq_true'] at h ⊢
  have f : ∀ m, straddles m (p ++ a) b = false → straddles m a b = false := by
    intro m hm
    cases hs : straddles m a b with
    | false => rfl
    | true => rw [straddles_append_left m p a b hs] at hm; exact absurd hm (by simp)
  exact ⟨f _ h.1, f _ h.2⟩

theorem noStraddleB_drop (a b : List Char) (n : Nat) (h : noStraddleB a b = true) :
    noStraddleB (a.drop n) b = true := by
  have hsplit : a.take n ++ a.drop n = a := List.take_append_drop n a
  rw [← hsplit] at h
  exact noStraddleB_of_append _ _ _ h

theorem scan_append_bound : ∀ n : Nat, ∀ a : List Char, a.length ≤ n →
    ∀ (b : List Char) (st : TagState) (bufs : Buffers), noStraddleB a b = true →
    scanTokens st (a ++ b) bufs
      = scanTokens (scanTokens st a bufs).1 b (scanTokens st a bufs).2 := by
  intro n
  induction n with
  | zero =>
    intro a ha b st bufs hns
    have hnil : a = [] := List.length_eq_zero.mp (Nat.le_zero.mp ha)
    subst hnil
    simp [scan_nil]
  | succ n ih =>
    intro a ha b st bufs hns
    cases st with
    | afterThink => simp [scan_after, List.append_assoc]
    | outsideThink =>
      cases a with
      | nil => simp [scan_nil]
      | cons c a' =>
        cases hm : matchesHead openMarker (c :: a') with
        | true =>
          have hmb : matchesHead openMarker ((c :: a') ++ b) = true :=
            matchesHead_append_right hm
          rw [scan_outside_found _ _ hmb, scan_outside_found _ _ hm]
          have hlen : openMarker.length ≤ (c :: a').length := matchesHead_length_le hm
          have hdrop : ((c :: a') ++ b).drop openMarker.length
              = (c :: a').drop openMarker.length ++ b := by
            rw [List.drop_append_eq_append_drop, Nat.sub_eq_zero_of_le hlen, List.drop_zero]
          rw [hdrop]
          refine ih _ ?_ b .insideThink bufs (noStraddleB_drop _ _ _ hns)
          rw [List.length_drop]
          have e7 : openMarker.length = 7 := rfl
          simp only [List.length_cons] at ha hlen ⊢
          omega
        | false =>
          cases hmb : matchesHead openMarker ((c :: a') ++ b) with
          | true =>
            exfalso
            have hlt : (c :: a').length < openMarker.length := by
              by_contra hge
              push_neg at hge
              have hx := matchesHead_of_append hmb hge
              rw [hm] at hx
              exact Bool.noConfusion hx
            have hsplit := matchesHead_split hmb hlt
            have hstr : straddles openMarker (c :: a') b = true := by
              rw [straddles, List.any_eq_true]
              refine ⟨(c :: a').length, ?_, ?_⟩
              · simp only [List.mem_range]; exact hlt
              · simp only [Bool.and_eq_true, decide_eq_true_eq]
                refine ⟨⟨by simp, ?_⟩, hsplit.2⟩
                rw [hsplit.1]
                exact endsWith_self _
            simp only [noStraddleB, Bool.and_eq_true, Bool.not_eq_true'] at hns
            exact absurd hstr (by simp [hns.1])
          | false =>
            have hmb' : matchesHead openMarker (c :: (a' ++ b)) = false := by
              simpa only [List.cons_append] using hmb
            have hgoal1 : ((c :: a') ++ b) = c :: (a' ++ b) := List.cons_append c a' b
            rw [hgoal1, scan_outside_cons _ _ _ hmb', scan_outside_cons _ _ _ hm]
            refine ih a' ?_ b .outsideThink _ (noStraddleB_of_append [c] a' b hns)
            simp only [List.length_cons] at ha
            omega
    | insideThink =>
      cases a with
      | nil => simp [scan_nil]
      | cons c a' =>
        cases hm : matchesHead closeMarker (c :: a') with
        | true =>
          have hmb : matchesHead closeMarker ((c :: a') ++ b) = true :=
            matchesHead_append_right hm
          rw [scan_inside_found _ _ hmb, scan_inside_found _ _ hm]
          have hlen : closeMarker.length ≤ (c :: a').length := matchesHead_length_le hm
          have hdrop : ((c :: a') ++ b).drop closeMarker.length
              = (c :: a').drop closeMarker.length ++ b := by
            rw [List.drop_append_eq_append_drop, Nat.sub_eq_zero_of_le hlen, List.drop_zero]
          rw [hdrop]
          refine ih _ ?_ b .afterThink bufs (noStraddleB_drop _ _ _ hns)
          rw [List.length_drop]
          have e8 : closeMarker.length = 8 := rfl
          simp only [List.length_cons] at ha hlen ⊢
          omega
        | false =>
          cases hmb : matchesHead closeMarker ((c :: a') ++ b) with
          | true =>
            exfalso
            have hlt : (c :: a').length < closeMarker.length := by
              by_contra hge
              push_neg at hge
              have hx := matchesHead_of_append hmb hge
              rw [hm] at hx
              exact Bool.noConfusion hx
            have hsplit := matchesHead_split hmb hlt
            have hstr : straddles closeMarker (c :: a') b = true := by
              rw [straddles, List.any_eq_true]
              refine ⟨(c :: a').length, ?_, ?_⟩
              · simp only [List.mem_range]; exact hlt
              · simp only [Bool.and_eq_true, decide_eq_true_eq]
                refine ⟨⟨by simp, ?_⟩, hsplit.2⟩
                rw [hsplit.1]
                exact endsWith_self _
            simp only [noStraddleB, Bool.and_eq_true, Bool.not_eq_true'] at hns
            exact absurd hstr (by simp [hns.2])
          | false =>
            have hmb' : matchesHead closeMarker (c :: (a' ++ b)) = false := by
              simpa only [List.cons_append] using hmb
            have hgoal1 : ((c :: a') ++ b) = c :: (a' ++ b) := List.cons_append c a' b
            rw [hgoal1, scan_inside_cons _ _ _ hmb', scan_inside_cons _ _ _ hm]
            refine ih a' ?_ b .insideThink _ (noStraddleB_of_append [c] a' b hns)
            simp only [List.length_cons] at ha
            omega

theorem scan_append (a b : List Char) (st : TagState) (bufs : Buffers)
    (h : noStraddleB a b = true) :
    scanTokens st (a ++ b) bufs
      = scanTokens (scanTokens st a bufs).1 b (scanTokens st a bufs).2 :=
  scan_append_bound a.length a le_rfl b st bufs h

theorem runFrom_nil (p : TagState × Buffers) : runFrom p [] = p := rfl

theorem runFrom_cons (st : TagState) (bufs : Buffers) (f : List Char)
    (rest : List (List Char)) :
    runFrom (st, bufs) (f :: rest) = runFrom (scanTokens st f bufs) rest := rfl

theorem goodSplitB_head {f : List Char} {rest : List (List Char)}
    (h : goodSplitB (f :: rest) = true) : noStraddleB f (flattenL rest) = true := by
  cases rest with
  | nil => simpa [flattenL] using noStraddleB_nil f
  | cons g rest' =>
    rw [goodSplitB, List.all_eq_true] at h
    have h1 := h 1 (by simp [List.mem_range])
    simp only [decide_eq_true_eq, Bool.or_eq_true] at h1
    rcases h1 with h1 | h1
    · omega
    · simpa [flattenL] using h1

theorem goodSplitB_tail {f : List Char} {rest : List (List Char)}
    (h : goodSplitB (f :: rest) = true) : goodSplitB rest = true := by
  rw [goodSplitB, List.all_eq_true] at h ⊢
  intro j hj
  simp only [List.mem_range] at hj
  by_cases hj0 : j = 0
  · subst hj0; simp
  · have hcond := h (j + 1) (by simp only [List.mem_range, List.length_cons]; omega)
    simp only [decide_eq_true_eq, Bool.or_eq_true] at hcond ⊢
    rcases hcond with hcond | hcond
    · omega
    · refine Or.inr ?_
      rw [List.take_succ_cons, List.drop_succ_cons] at hcond
      have : flattenL (f :: rest.take j) = f ++ flattenL (rest.take j) := rfl
      rw [this] at hcond
      exact noStraddleB_of_append f _ _ hcond

theorem runFrom_flatten : ∀ (fs : List (List Char)) (st : TagState) (bufs : Buffers),
    goodSplitB fs = true → runFrom (st, bufs) fs = scanTokens st (flattenL fs) bufs := by
  intro fs
  induction fs with
  | nil => intro st bufs _; rw [runFrom_nil]; simp [flattenL, scan_nil]
  | cons f rest ih =>
    intro st bufs h
    rw [runFrom_cons]
    simp only [flattenL]
    rw [scan_append f (flattenL rest) st bufs (goodSplitB_head h)]
    rcases hsc : scanTokens st f bufs with ⟨st2, bufs2⟩
    exact ih st2 bufs2 (goodSplitB_tail h)

/-- C1 counterexample: the spec's fragmentation scenario splits both
markers across fragment boundaries, so the scan of handle_message never
recognizes them: the whole raw stream ends up in outside_buffer and the
spec's claimed final buffers are not produced. -/
theorem c1_fragmentation_counterexample :
    (runFrags ["Hel".data, "lo <thi".data, "nk>reasoning here</thin".data, "k> world".data]).2
        = ⟨"Hello <think>reasoning here</think> world".data, [], []⟩ ∧
    (runFrags ["Hel".data, "lo <thi".data, "nk>reasoning here</thin".data, "k> world".data]).2
        ≠ ⟨"Hello ".data, "reasoning here".data, " world".data⟩ := by
  constructor
  · decide
  · decide

/-- C1 (amended): for every fragment sequence in which no marker
occurrence straddles a fragment boundary, processing the fragments one by
one yields exactly the same final state and buffers as processing the
whole raw stream in one call — fragmentation-invariance holds only for
marker-respecting splits. -/
theorem c1_fragmentation_invariance (fs : List (List Char)) (h : goodSplitB fs = true) :
    runFrags fs = runFrags [flattenL fs] := by
  rw [runFrags, runFrags, runFrom_flatten fs _ _ h]
  rfl

theorem c1_fragmentation_invariance_witness :
    goodSplitB ["Hello ".data, "<think>reasoning here</think>".data, " world".data] = true ∧
    runFrags ["Hello ".data, "<think>reasoning here</think>".data, " world".data]
      = runFrags [flattenL
          ["Hello ".data, "<think>reasoning here</think>".data, " world".data]] :=
  ⟨by decide, c1_fragmentation_invariance _ (by decide)⟩

theorem scan_outside_nosub : ∀ (cs : List Char) (bufs : Buffers),
    hasSub openMarker cs = false →
    scanTokens .outsideThink cs bufs
      = (.outsideThink, {bufs with outside := bufs.outside ++ cs}) := by
  intro cs
  induction cs with
  | nil => intro bufs _; rw [scan_nil]; simp
  | cons c rest ih =>
    intro bufs h
    rw [hasSub, Bool.or_eq_false_iff] at h
    rw [scan_outside_cons _ _ _ h.1, ih _ h.2]
    simp

theorem scan_inside_nosub : ∀ (cs : List Char) (bufs : Buffers),
    hasSub closeMarker cs = false →
    scanTokens .insideThink cs bufs
      = (.insideThink, {bufs with inside := bufs.inside ++ cs}) := by
  intro cs
  induction cs with
  | nil => intro bufs _; rw [scan_nil]; simp
  | cons c rest ih =>
    intro bufs h
    rw [hasSub, Bool.or_eq_false_iff] at h
    rw [scan_inside_cons _ _ _ h.1, ih _ h.2]
    simp

/-- Fragments containing no full marker are appended verbatim to the
current state's buffer and cause no transition, in every state. -/
theorem scan_nosub (st : TagState) (cs : List Char) (bufs : Buffers)
    (ho : hasSub openMarker cs = false) (hc : hasSub closeMarker cs = false) :
    scanTokens st cs bufs = (st, appendCurrent st bufs cs) := by
  cases st with
  | outsideThink => rw [scan_outside_nosub cs bufs ho]; rfl
  | insideThink => rw [scan_inside_nosub cs bufs hc]; rfl
  | afterThink => rw [scan_after]; rfl

theorem runFrom_outside_nosub : ∀ (fs : List (List Char)) (bufs : Buffers),
    hasSub openMarker (flattenL fs) = false →
    runFrom (.outsideThink, bufs) fs
      = (.outsideThink, {bufs with outside := bufs.outside ++ flattenL fs}) := by
  intro fs
  induction fs with
  | nil => intro bufs _; rw [runFrom_nil]; simp [flattenL]
  | cons f rest ih =>
    intro bufs h
    simp only [flattenL] at h ⊢
    have hp := hasSub_append_eq_false h
    rw [runFrom_cons, scan_outside_nosub f bufs hp.1, ih _ hp.2]
    simp [List.append_assoc]

/-- C7: a fragment stream whose raw text contains neither marker leaves
reasoning empty and accumulates the whole raw stream in the before
buffer, still in the initial state. -/
theorem c7_no_markers (fs : List (List Char))
    (hopen : hasSub openMarker (flattenL fs) = false)
    (hclose : hasSub closeMarker (flattenL fs) = false) :
    runFrags fs = (.outsideThink, ⟨flattenL fs, [], []⟩) := by
  rw [runFrags, runFrom_outside_nosub fs emptyBuffers hopen]
  simp [emptyBuffers]

theorem c7_no_markers_witness :
    (hasSub openMarker (flattenL ["Hello".data, " world".data]) = false ∧
     hasSub closeMarker (flattenL ["Hello".data, " world".data]) = false) ∧
    runFrags ["Hello".data, " world".data]
      = (.outsideThink, ⟨flattenL ["Hello".data, " world".data], [], []⟩) :=
  ⟨⟨by decide, by decide⟩, c7_no_markers _ (by decide) (by decide)⟩

/-- C3: a marker split across two consecutive fragments is never treated
as found: when neither fragment contains a full marker on its own —
even if their concatenation does — the scan performs no state transition
and both fragments are appended verbatim, as ordinary text, to the buffer
of the current state. -/
theorem c3_split_marker_not_found (st : TagState) (bufs : Buffers) (f1 f2 : List Char)
    (h1o : hasSub openMarker f1 = false) (h1c : hasSub closeMarker f1 = false)
    (h2o : hasSub openMarker f2 = false) (h2c : hasSub closeMarker f2 = false) :
    runFrom (st, bufs) [f1, f2] = (st, appendCurrent st bufs (f1 ++ f2)) := by
  rw [runFrom_cons, scan_nosub st f1 bufs h1o h1c,
    runFrom_cons, scan_nosub st f2 _ h2o h2c, runFrom_nil]
  cases st <;> simp [appendCurrent, List.append_assoc]

theorem c3_split_marker_witness :
    (hasSub openMarker "<thi".data = false ∧ hasSub closeMarker "<thi".data = false ∧
     hasSub openMarker "nk>".data = false ∧ hasSub closeMarker "nk>".data = false) ∧
    runFrom (.outsideThink, emptyBuffers) ["<thi".data, "nk>".data]
      = (.outsideThink, appendCurrent .outsideThink emptyBuffers ("<thi".data ++ "nk>".data)) :=
  ⟨⟨by decide, by decide, by decide, by decide⟩,
    c3_split_marker_not_found _ _ _ _ (by decide) (by decide) (by decide) (by decide)⟩

/-- C2 counterexample: in the third state the scan never looks for a
re-entrant open marker — a second open/close pair is left verbatim in
after_buffer, the reasoning buffer does not accumulate the second span,
and the state never returns to insideThink. -/
theorem c2_afterthink_counterexample :
    runFrags ["a<think>b</think>c<think>d</think>e".data]
      = (.afterThink, ⟨"a".data, "b".data, "c<think>d</think>e".data⟩) ∧
    (runFrags ["a<think>b</think>c<think>d</think>e".data]).2.inside ≠ "bd".data ∧
    (runFrags ["a<think>b</think>c<think>d</think>e".data]).2.after ≠ "ce".data := by
  refine ⟨by decide, by decide, by decide⟩

/-- C2 (amended): once the scan has reached the state after the first
close marker, every subsequently arriving fragment — open markers
included — is appended in full to the after buffer; the machine never
transitions out of this state, so only the first open/close pair of a
stream is honoured. -/
theorem c2_afterthink_absorbs (fs : List (List Char)) (bufs : Buffers) :
    runFrom (.afterThink, bufs) fs
      = (.afterThink, {bufs with after := bufs.after ++ flattenL fs}) := by
  induction fs generalizing bufs with
  | nil => rw [runFrom_nil]; simp [flattenL]
  | cons f rest ih =>
    rw [runFrom_cons, scan_after, ih]
    simp [flattenL, List.append_assoc]

theorem buffers_extend_bound : ∀ n : Nat, ∀ cs : List Char, cs.length ≤ n →
    ∀ (st : TagState) (bufs : Buffers), ∃ t1 t2 t3,
    (scanTokens st cs bufs).2
      = ⟨bufs.outside ++ t1, bufs.inside ++ t2, bufs.after ++ t3⟩ := by
  intro n
  induction n with
  | zero =>
    intro cs h st bufs
    have hnil : cs = [] := List.length_eq_zero.mp (Nat.le_zero.mp h)
    subst hnil
    exact ⟨[], [], [], by rw [scan_nil]; simp⟩
  | succ n ih =>
    intro cs h st bufs
    cases st with
    | afterThink => exact ⟨[], [], cs, by rw [scan_after]; simp⟩
    | outsideThink =>
      cases cs with
      | nil => exact ⟨[], [], [], by rw [scan_nil]; simp⟩
      | cons c rest =>
        cases hm : matchesHead openMarker (c :: rest) with
        | true =>
          have hlen : openMarker.length ≤ (c :: rest).length := matchesHead_length_le hm
          obtain ⟨t1, t2, t3, ht⟩ := ih ((c :: rest).drop openMarker.length)
            (by
              rw [List.length_drop]
              have e7 : openMarker.length = 7 := rfl
              simp only [List.length_cons] at h hlen ⊢
              omega) .insideThink bufs
          exact ⟨t1, t2, t3, by rw [scan_outside_found _ _ hm]; exact ht⟩
        | false =>
          obtain ⟨t1, t2, t3, ht⟩ := ih rest
            (by simp only [List.length_cons] at h; omega) .outsideThink
            {bufs with outside := bufs.outside ++ [c]}
          refine ⟨[c] ++ t1, t2, t3, ?_⟩
          rw [scan_outside_cons _ _ _ hm, ht]
          simp [List.append_assoc]
    | insideThink =>
      cases cs with
      | nil => exact ⟨[], [], [], by rw [scan_nil]; simp⟩
      | cons c rest =>
        cases hm : matchesHead closeMarker (c :: rest) with
        | true =>
          have hlen : closeMarker.length ≤ (c :: rest).length := matchesHead_length_le hm
          obtain ⟨t1, t2, t3, ht⟩ := ih ((c :: rest).drop closeMarker.length)
            (by
              rw [List.length_drop]
              have e8 : closeMarker.length = 8 := rfl
              simp only [List.length_cons] at h hlen ⊢
              omega) .afterThink bufs
          exact ⟨t1, t2, t3, by rw [scan_inside_found _ _ hm]; exact ht⟩
        | false =>
          obtain ⟨t1, t2, t3, ht⟩ := ih rest
            (by simp only [List.length_cons] at h; omega) .insideThink
            {bufs with inside := bufs.inside ++ [c]}
          refine ⟨t1, [c] ++ t2, t3, ?_⟩
          rw [scan_inside_cons _ _ _ hm, ht]
          simp [List.append_assoc]

/-- C10: the streaming loop is append-only — one iteration extends the
accumulated raw stream by exactly the fragment's text, and each of the
three segment buffers keeps its previous value as a prefix. -/
theorem c10_buffers_append_only (full : List Char) (st : TagState) (bufs : Buffers)
    (f : List Char) :
    (handleFragment full st bufs f).1 = full ++ f ∧
    (∃ t, ((handleFragment full st bufs f).2.2).outside = bufs.outside ++ t) ∧
    (∃ t, ((handleFragment full st bufs f).2.2).inside = bufs.inside ++ t) ∧
    (∃ t, ((handleFragment full st bufs f).2.2).after = bufs.after ++ t) := by
  obtain ⟨t1, t2, t3, ht⟩ := buffers_extend_bound f.length f le_rfl st bufs
  refine ⟨rfl, ⟨t1, ?_⟩, ⟨t2, ?_⟩, ⟨t3, ?_⟩⟩ <;>
    · simp only [handleFragment]
      rw [ht]

theorem adjust_start_le (conv : List Turn) : ∀ i : Nat, adjust_start conv i ≤ i := by
  intro i
  induction i with
  | zero => simp [adjust_start]
  | succ i ih =>
    by_cases hu : roleAt conv (i + 1) = "user"
    · simp [adjust_start, hu]
    · rw [adjust_start, if_neg hu]
      omega

theorem adjust_start_spec (conv : List Turn) : ∀ i : Nat,
    adjust_start conv i = 0 ∨ roleAt conv (adjust_start conv i) = "user" := by
  intro i
  induction i with
  | zero => exact Or.inl rfl
  | succ i ih =>
    by_cases hu : roleAt conv (i + 1) = "user"
    · rw [adjust_start, if_pos hu]
      exact Or.inr hu
    · rw [adjust_start, if_neg hu]
      exact ih

theorem adjust_start_between (conv : List Turn) : ∀ i j : Nat,
    adjust_start conv i < j → j ≤ i → roleAt conv j ≠ "user" := by
  intro i
  induction i with
  | zero =>
    intro j h1 h2
    rw [show adjust_start conv 0 = 0 from rfl] at h1
    exact absurd h2 (by omega)
  | succ i ih =>
    intro j h1 h2
    by_cases hu : roleAt conv (i + 1) = "user"
    · rw [adjust_start, if_pos hu] at h1
      exact absurd h2 (by omega)
    · rw [adjust_start, if_neg hu] at h1
      by_cases hj : j = i + 1
      · subst hj; exact hu
      · exact ih j h1 (by omega)

theorem head_drop_eq_get? {α : Type} : ∀ (l : List α) (n : Nat), (l.drop n).head? = l.get? n := by
  intro l n
  induction n generalizing l with
  | zero => cases l <;> rfl
  | succ n ih =>
    cases l with
    | nil => rfl
    | cons a t =>
      simp only [List.drop_succ_cons, List.get?_cons_succ]
      exact ih t

/-- C4 counterexample: a conversation of a single assistant turn is short
enough to be returned unchanged by trim_conversation, so the trimmed
sequence begins with an assistant turn. -/
theorem c4_trim_counterexample :
    trim_conversation [aTurn] 1 = [aTurn] ∧
    ∃ t, (trim_conversation [aTurn] 1).head? = some t ∧ t.role = "assistant" :=
  ⟨by decide, aTurn, by decide, by decide⟩

/-- C4 (amended): for every nonempty conversation whose first entry has
role user and every maxTurns ≥ 1, trim_conversation returns a sequence
whose first element has role user — in particular it never begins with an
assistant turn.  Without the user-head hypothesis the guarantee fails
(see the counterexample). -/
theorem c4_trim_user_head (conv : List Turn) (mt : Nat) (t0 : Turn)
    (h0 : conv.head? = some t0) (hu : t0.role = "user") (hmt : 1 ≤ mt) :
    ∃ t, (trim_conversation conv mt).head? = some t ∧ t.role = "user" := by
  by_cases hlen : conv.length ≤ mt * 2
  · refine ⟨t0, ?_, hu⟩
    rw [trim_conversation, if_pos hlen]
    exact h0
  · push_neg at hlen
    rw [trim_conversation, if_neg (by omega)]
    have hle := adjust_start_le conv (conv.length - mt * 2)
    rcases adjust_start_spec conv (conv.length - mt * 2) with hz | hr
    · refine ⟨t0, ?_, hu⟩
      rw [hz, List.drop_zero]
      exact h0
    · cases hget : conv.get? (adjust_start conv (conv.length - mt * 2)) with
      | none =>
        simp only [roleAt, hget] at hr
        exact absurd hr (by decide)
      | some t =>
        simp only [roleAt, hget] at hr
        refine ⟨t, ?_, hr⟩
        rw [head_drop_eq_get?]
        exact hget

theorem c4_trim_user_head_witness :
    (([uTurn, aTurn, uTurn, aTurn] : List Turn).head? = some uTurn ∧
      uTurn.role = "user" ∧ 1 ≤ 1) ∧
    ∃ t, (trim_conversation [uTurn, aTurn, uTurn, aTurn] 1).head? = some t ∧
      t.role = "user" :=
  ⟨⟨by decide, by decide, le_rfl⟩,
    c4_trim_user_head _ _ uTurn (by decide) (by decide) le_rfl⟩

/-- C5 counterexample: on a conversation of three assistant turns
followed by a user turn with maxTurns = 1, the backward start-index scan
of trim_conversation reaches index 0 and the whole four-entry
conversation is returned, exceeding the claimed bound of 2 * maxTurns
entries (the spec's forward scan would instead return at most 2). -/
theorem c5_trim_window_counterexample :
    trim_conversation [aTurn, aTurn, aTurn, uTurn] 1 = [aTurn, aTurn, aTurn, uTurn] ∧
    ¬ (trim_conversation [aTurn, aTurn, aTurn, uTurn] 1).length ≤ 2 * 1 :=
  ⟨by decide, by decide⟩

/-- C5 (amended): trim_conversation returns the conversation unchanged
when its length is at most 2 * maxTurns; otherwise it starts from the
most recent 2 * maxTurns entries and moves the start index backward —
not forward — until it lands on a user-role entry or reaches index 0,
returning the suffix from there: the entries strictly between the chosen
start and the window start are all non-user, and the result has at least
2 * maxTurns entries (not at most) and at most the whole conversation. -/
theorem c5_trim_window (conv : List Turn) (mt : Nat) (hmt : 1 ≤ mt) :
    (conv.length ≤ mt * 2 → trim_conversation conv mt = conv) ∧
    (mt * 2 < conv.length →
      trim_conversation conv mt
          = conv.drop (adjust_start conv (conv.length - mt * 2)) ∧
      adjust_start conv (conv.length - mt * 2) ≤ conv.length - mt * 2 ∧
      (adjust_start conv (conv.length - mt * 2) = 0 ∨
        roleAt conv (adjust_start conv (conv.length - mt * 2)) = "user") ∧
      (∀ j, adjust_start conv (conv.length - mt * 2) < j →
        j ≤ conv.length - mt * 2 → roleAt conv j ≠ "user") ∧
      mt * 2 ≤ (trim_conversation conv mt).length ∧
      (trim_conversation conv mt).length ≤ conv.length) := by
  constructor
  · intro h
    rw [trim_conversation, if_pos h]
  · intro h
    have heq : trim_conversation conv mt
        = conv.drop (adjust_start conv (conv.length - mt * 2)) := by
      rw [trim_conversation, if_neg (by omega)]
    have hle := adjust_start_le conv (conv.length - mt * 2)
    refine ⟨heq, hle, adjust_start_spec conv _, adjust_start_between conv _, ?_, ?_⟩
    · rw [heq, List.length_drop]
      omega
    · rw [heq, List.length_drop]
      omega

theorem c5_trim_window_witness :
    (1 ≤ 1 ∧ ([uTurn, aTurn] : List Turn).length ≤ 1 * 2 ∧
      1 * 2 < ([uTurn, aTurn, uTurn, aTurn] : List Turn).length) ∧
    trim_conversation [uTurn, aTurn] 1 = [uTurn, aTurn] ∧
    trim_conversation [uTurn, aTurn, uTurn, aTurn] 1
      = ([uTurn, aTurn, uTurn, aTurn] : List Turn).drop
          (adjust_start [uTurn, aTurn, uTurn, aTurn]
            (([uTurn, aTurn, uTurn, aTurn] : List Turn).length - 1 * 2)) :=
  ⟨⟨le_rfl, by decide, by decide⟩,
    (c5_trim_window [uTurn, aTurn] 1 le_rfl).1 (by decide),
    ((c5_trim_window [uTurn, aTurn, uTurn, aTurn] 1 le_rfl).2 (by decide)).1⟩

theorem chunk_text_zero (s : List Char) : chunk_text s 0 = [] := by
  cases s <;> rfl

theorem chunk_concat_bound : ∀ n : Nat, ∀ s : List Char, s.length ≤ n → ∀ m : Nat, 1 ≤ m →
    flattenL (chunk_text s m) = s := by
  intro n
  induction n with
  | zero =>
    intro s h m hm
    have hnil : s = [] := List.length_eq_zero.mp (Nat.le_zero.mp h)
    subst hnil
    rw [chunk_text_nil]
    rfl
  | succ n ih =>
    intro s h m hm
    cases s with
    | nil => rw [chunk_text_nil]; rfl
    | cons c cs =>
      cases m with
      | zero => omega
      | succ m0 =>
        rw [chunk_text_step]
        simp only [flattenL]
        rw [ih ((c :: cs).drop (m0 + 1))
          (by rw [List.length_drop]; simp only [List.length_cons] at h ⊢; omega)
          (m0 + 1) (by omega)]
        exact List.take_append_drop _ _

theorem chunk_len_le_bound : ∀ n : Nat, ∀ s : List Char, s.length ≤ n → ∀ m : Nat,
    ∀ ch ∈ chunk_text s m, ch.length ≤ m := by
  intro n
  induction n with
  | zero =>
    intro s h m ch hch
    have hnil : s = [] := List.length_eq_zero.mp (Nat.le_zero.mp h)
    subst hnil
    rw [chunk_text_nil] at hch
    simp at hch
  | succ n ih =>
    intro s h m ch hch
    cases s with
    | nil => rw [chunk_text_nil] at hch; simp at hch
    | cons c cs =>
      cases m with
      | zero => rw [chunk_text_zero] at hch; simp at hch
      | succ m0 =>
        rw [chunk_text_step] at hch
        rcases List.mem_cons.mp hch with hch | hch
        · subst hch; exact List.length_take_le _ _
        · exact ih ((c :: cs).drop (m0 + 1))
            (by rw [List.length_drop]; simp only [List.length_cons] at h ⊢; omega)
            (m0 + 1) ch hch

theorem chunk_text_ne_nil : ∀ (s : List Char) (m : Nat), chunk_text s m ≠ [] → s ≠ [] := by
  intro s m h hcon
  subst hcon
  exact h (chunk_text_nil m)

theorem chunk_dropLast_bound : ∀ n : Nat, ∀ s : List Char, s.length ≤ n → ∀ m : Nat,
    ∀ ch ∈ (chunk_text s m).dropLast, ch.length = m := by
  intro n
  induction n with
  | zero =>
    intro s h m ch hch
    have hnil : s = [] := List.length_eq_zero.mp (Nat.le_zero.mp h)
    subst hnil
    rw [chunk_text_nil] at hch
    simp at hch
  | succ n ih =>
    intro s h m ch hch
    cases s with
    | nil => rw [chunk_text_nil] at hch; simp at hch
    | cons c cs =>
      cases m with
      | zero => rw [chunk_text_zero] at hch; simp at hch
      | succ m0 =>
        rw [chunk_text_step] at hch
        cases hrest : chunk_text ((c :: cs).drop (m0 + 1)) (m0 + 1) with
        | nil => rw [hrest] at hch; simp [List.dropLast] at hch
        | cons r rs =>
          rw [hrest] at hch
          have hsplit : ((c :: cs).take (m0 + 1) :: r :: rs).dropLast
              = (c :: cs).take (m0 + 1) :: (r :: rs).dropLast := rfl
          rw [hsplit] at hch
          rcases List.mem_cons.mp hch with hch | hch
          · subst hch
            have hne : (c :: cs).drop (m0 + 1) ≠ [] :=
              chunk_text_ne_nil _ _ (by rw [hrest]; exact List.cons_ne_nil r rs)
            have hlt : m0 + 1 < (c :: cs).length := by
              by_contra hge
              push_neg at hge
              exact hne (List.drop_eq_nil_iff.mpr hge)
            rw [List.length_take]
            omega
          · rw [← hrest] at hch
            exact ih ((c :: cs).drop (m0 + 1))
              (by rw [List.length_drop]; simp only [List.length_cons] at h ⊢; omega)
              (m0 + 1) ch hch

/-- C6: for every string and maximum length L ≥ 1 the chunker returns an
ordered sequence of contiguous slices whose concatenation is exactly the
input (so the chunks are non-overlapping substrings in order), each chunk
has length at most L, every chunk except possibly the last has length
exactly L, and the empty string yields the empty sequence. -/
theorem c6_chunker (s : List Char) (L : Nat) (hL : 1 ≤ L) :
    flattenL (chunk_text s L) = s ∧
    (∀ ch ∈ chunk_text s L, ch.length ≤ L) ∧
    (∀ ch ∈ (chunk_text s L).dropLast, ch.length = L) ∧
    (s = [] → chunk_text s L = []) := by
  refine ⟨chunk_concat_bound s.length s le_rfl L hL,
    chunk_len_le_bound s.length s le_rfl L,
    chunk_dropLast_bound s.length s le_rfl L, ?_⟩
  intro h
  subst h
  exact chunk_text_nil L

theorem c6_chunker_witness :
    1 ≤ 2 ∧
    (flattenL (chunk_text "abcde".data 2) = "abcde".data ∧
     (∀ ch ∈ chunk_text "abcde".data 2, ch.length ≤ 2) ∧
     (∀ ch ∈ (chunk_text "abcde".data 2).dropLast, ch.length = 2) ∧
     ("abcde".data = [] → chunk_text "abcde".data 2 = [])) :=
  ⟨by omega, c6_chunker "abcde".data 2 (by omega)⟩

theorem scan_open_head (x : List Char) (bufs : Buffers) :
    scanTokens .outsideThink (openMarker ++ x) bufs = scanTokens .insideThink x bufs := by
  rw [scan_outside_found _ _ (matchesHead_append_self openMarker x), List.drop_left]

theorem closeMarker_border_free : ∀ j : Nat, j < closeMarker.length → 0 < j →
    matchesHead (closeMarker.drop j) closeMarker = false := by decide

theorem scan_inside_consume : ∀ (R rest : List Char) (bufs : Buffers),
    hasSub closeMarker R = false →
    scanTokens .insideThink (R ++ (closeMarker ++ rest)) bufs
      = scanTokens .afterThink rest {bufs with inside := bufs.inside ++ R} := by
  intro R
  induction R with
  | nil =>
    intro rest bufs _
    simp only [List.nil_append]
    rw [scan_inside_found _ _ (matchesHead_append_self closeMarker rest), List.drop_left]
    simp
  | cons c R' ih =>
    intro rest bufs h
    rw [hasSub, Bool.or_eq_false_iff] at h
    have hm : matchesHead closeMarker ((c :: R') ++ (closeMarker ++ rest)) = false := by
      cases hmb : matchesHead closeMarker ((c :: R') ++ (closeMarker ++ rest)) with
      | false => rfl
      | true =>
        exfalso
        by_cases hle : closeMarker.length ≤ (c :: R').length
        · have hx := matchesHead_of_append hmb hle
          rw [h.1] at hx
          exact Bool.noConfusion hx
        · push_neg at hle
          have hsplit := matchesHead_split hmb hle
          have hlen2 : (closeMarker.drop (c :: R').length).length ≤ closeMarker.length := by
            rw [List.length_drop]
            omega
          have hin : matchesHead (closeMarker.drop (c :: R').length) closeMarker = true :=
            matchesHead_of_append hsplit.2 hlen2
          have hbf := closeMarker_border_free (c :: R').length hle (by simp)
          rw [hbf] at hin
          exact Bool.noConfusion hin
    have hm' : matchesHead closeMarker (c :: (R' ++ (closeMarker ++ rest))) = false := by
      simpa only [List.cons_append] using hm
    rw [List.cons_append, scan_inside_cons _ _ _ hm', ih rest _ h.2]
    simp [List.append_assoc]

theorem pyStrip_newline_cons (C : List Char) : pyStrip ('\n' :: C) = pyStrip C := by
  rw [pyStrip, pyStrip, List.dropWhile_cons_of_pos]
  rfl

/-- C8 counterexample: the model output `<think>r</think>x`, split and
stored by handle_message and then re-serialized by build_prompt, comes
back as `<think>r</think>\nx` — the rebuild inserts a newline after the
close marker, so rebuilding does not yield the original text. -/
theorem c8_roundtrip_counterexample :
    rebuildAssistant (mkAssistantTurn
        (scanTokens .outsideThink "<think>r</think>x".data emptyBuffers).2)
      = "<think>r</think>\nx".data ∧
    rebuildAssistant (mkAssistantTurn
        (scanTokens .outsideThink "<think>r</think>x".data emptyBuffers).2)
      ≠ "<think>r</think>x".data := by
  constructor
  · decide
  · decide

/-- C8 (amended): the round trip holds exactly for outputs already in the
canonical shape `<think>R</think>\nC` with R non-empty, R and C free of
surrounding whitespace and R free of the close marker: splitting such an
output with the tag-split scan, committing it as an assistant turn and
rebuilding it through build_prompt reproduces the original text verbatim
(next to the system message); outputs not of this shape are changed by
the whitespace stripping and the inserted newline (see the
counterexample).  Assistant turns whose stripped reasoning is empty are
rendered as their stripped content alone. -/
theorem c8_roundtrip (R C : List Char) (hR : R ≠ []) (hRs : pyStrip R = R)
    (hCs : pyStrip C = C) (hno : hasSub closeMarker R = false) :
    build_prompt [mkAssistantTurn
        (scanTokens .outsideThink (canonicalOutput R C) emptyBuffers).2]
      = [⟨"system", systemContent⟩, ⟨"assistant", canonicalOutput R C⟩] ∧
    (∀ t : Turn, pyStrip t.thinking = [] → rebuildAssistant t = pyStrip t.content) := by
  constructor
  · have hscan : scanTokens .outsideThink (canonicalOutput R C) emptyBuffers
        = (.afterThink, ⟨[], R, '\n' :: C⟩) := by
      rw [canonicalOutput, scan_open_head,
        scan_inside_consume R ('\n' :: C) emptyBuffers hno, scan_after]
      simp [emptyBuffers]
    rw [hscan]
    have hstrip1 : pyStrip ('\n' :: C) = C := by rw [pyStrip_newline_cons, hCs]
    have hmk : mkAssistantTurn ⟨[], R, '\n' :: C⟩ = ⟨"assistant", C, R⟩ := by
      simp [mkAssistantTurn, hstrip1, hRs]
    have hrb : rebuildAssistant ⟨"assistant", C, R⟩ = canonicalOutput R C := by
      simp [rebuildAssistant, hRs, hCs, canonicalOutput, hR]
    simp [build_prompt, renderTurn, hmk, hrb]
  · intro t ht
    simp [rebuildAssistant, ht]

set_option maxRecDepth 10000 in
theorem c8_roundtrip_witness :
    ("r".data ≠ ([] : List Char) ∧ pyStrip "r".data = "r".data ∧
      pyStrip "x".data = "x".data ∧ hasSub closeMarker "r".data = false) ∧
    (build_prompt [mkAssistantTurn
        (scanTokens .outsideThink (canonicalOutput "r".data "x".data) emptyBuffers).2]
      = [⟨"system", systemContent⟩, ⟨"assistant", canonicalOutput "r".data "x".data⟩] ∧
    (∀ t : Turn, pyStrip t.thinking = [] → rebuildAssistant t = pyStrip t.content)) :=
  ⟨⟨by decide, by decide, by decide, by decide⟩,
    c8_roundtrip "r".data "x".data (by decide) (by decide) (by decide) (by decide)⟩

theorem validateConvo_filterMap : ∀ convo : List JVal,
    validateConvo convo = convo.filterMap validateTurn := by
  intro convo
  induction convo with
  | nil => rfl
  | cons t rest ih =>
    cases hv : validateTurn t with
    | some v => simp only [validateConvo, List.filterMap_cons, hv, ih]
    | none => simp only [validateConvo, List.filterMap_cons, hv, ih]

/-- C9 counterexample: when the serialized store itself is unreadable
(json.load raises), load_conversations replaces the whole store with the
empty one — everything is discarded, not just unreadable entries — while
a readable store keeps its entries. -/
theorem c9_whole_store_counterexample :
    load_conversations none = [] ∧
    load_conversations (some [("1",
      [JVal.jobj [("role", JVal.jstr "user"), ("content", JVal.jstr "hi")]])]) ≠ [] := by
  constructor
  · rfl
  · simp [load_conversations]

/-- C9 (amended): only within a successfully decoded store are malformed
entries dropped individually — every conversation key is retained in
order and each conversation keeps exactly its well-formed turns; when the
serialized form itself is unreadable the whole store is discarded and
replaced by the empty store. -/
theorem c9_load_amended :
    load_conversations none = [] ∧
    (∀ loaded : List (String × List JVal),
      load_conversations (some loaded)
        = loaded.map (fun p => (p.1, p.2.filterMap validateTurn)) ∧
      (load_conversations (some loaded)).map Prod.fst = loaded.map Prod.fst) := by
  refine ⟨rfl, ?_⟩
  intro loaded
  constructor
  · simp [load_conversations, validateConvo_filterMap]
  · simp [load_conversations]
